import Mathlib

/-!
Verification development for the Navgator interactive fuzzy finder
(`src/main.rs`).  The Rust source is shallowly embedded: strings are Lean
`String`s (lists of characters), `usize` becomes `Nat`, `i64` becomes `Int`,
`HashMap`s become association lists, `HashSet`s become lists, and Rust's
stable `sort_by` becomes `List.mergeSort` with `le a b := cmp a b ≠ .gt`.
Unicode notes: the source mixes `eq_ignore_ascii_case` (ASCII folding) with
`to_lowercase` (Unicode folding); the embedding models both as ASCII
lowercasing, which is exact on ASCII text.  Rust's `char::is_whitespace` is
modelled on the ASCII whitespace characters.
-/

/-- ASCII whitespace test, modelling `char::is_whitespace` on ASCII input. -/
def isWs (c : Char) : Bool :=
  c = ' ' || c = '\t' || c = '\n' || c = '\r'

/-- ASCII lowercasing, modelling `char::to_ascii_lowercase` (and standing in
for `str::to_lowercase`, which agrees with it on ASCII). -/
def lowerChar (c : Char) : Char :=
  if 'A' ≤ c ∧ c ≤ 'Z' then Char.ofNat (c.toNat + 32) else c

/-- Greedy subsequence matcher over characters: the loop body of
`fuzzy_match` in `src/main.rs` (lines 1451-1469), with
`q.eq_ignore_ascii_case(&t)` modelled as equality after `lowerChar`. -/
def fuzzyChars : List Char → List Char → Bool
  | [], _ => true
  | _ :: _, [] => false
  | q :: qs, t :: ts =>
    if lowerChar q = lowerChar t then fuzzyChars qs ts
    else fuzzyChars (q :: qs) ts

/-- Embedding of `fuzzy_match(query, text)`: whitespace is stripped from the
query and the remainder is matched greedily, case-insensitively, against
`text`. -/
def fuzzy_match (query text : String) : Bool :=
  fuzzyChars (query.data.filter fun c => !isWs c) text.data

/-- Greedy match positions: the position-collecting loop of `match_score`
(`src/main.rs` lines 1482-1492); `i` is the index of the head of the text. -/
def greedyPos : List Char → List Char → Nat → List Nat
  | [], _, _ => []
  | _ :: _, [], _ => []
  | q :: qs, t :: ts, i =>
    if lowerChar q = lowerChar t then i :: greedyPos qs ts (i + 1)
    else greedyPos (q :: qs) ts (i + 1)

/-- Sum of the gaps between consecutive matched positions, the `windows(2)`
loop of `match_score` (`next.saturating_sub(prev + 1)` accumulated). -/
def gapSum : List Nat → Nat
  | a :: b :: rest => (b - (a + 1)) + gapSum (b :: rest)
  | _ => 0

/-- First index at which `needle` occurs as a contiguous sublist of the text,
modelling `str::find` at character granularity. -/
def substrIdx (needle : List Char) : List Char → Option Nat
  | [] => if needle.isEmpty then some 0 else none
  | t :: ts =>
    if needle.isPrefixOf (t :: ts) then some 0
    else (substrIdx needle ts).map (· + 1)

/-- Embedding of `find_case_insensitive(text, needle)` (`src/main.rs` lines
1511-1519): both sides are lowercased and the first occurrence is located;
the source's byte-to-char index conversion is folded in by working at
character granularity throughout. -/
def find_case_insensitive (text needle : String) : Option Nat :=
  if needle.data.isEmpty then some 0
  else substrIdx (needle.data.map lowerChar) (text.data.map lowerChar)

/-- Five-component match score `(kind_penalty, span, gap, start,
text_length)`, lower is lexicographically better. -/
abbrev Score := Nat × Nat × Nat × Nat × Nat

/-- Embedding of `match_score(query, text)` (`src/main.rs` lines 1471-1509):
empty stripped query scores `(0,0,0,0,len)`; a contiguous case-insensitive
substring match scores penalty 0; otherwise the greedy subsequence match
scores penalty 1, or fails. -/
def match_score (query text : String) : Option Score :=
  let qchars := query.data.filter fun c => !isWs c
  if qchars.isEmpty then some (0, 0, 0, 0, text.data.length)
  else
    match find_case_insensitive text query with
    | some start => some (0, qchars.length - 1, 0, start, text.data.length)
    | none =>
      let positions := greedyPos qchars text.data 0
      if positions.length < qchars.length then none
      else
        let start := positions.headD 0
        let stop := positions.getLastD start
        some (1, stop - start, gapSum positions, start, text.data.length)

/-- Splitting a character list at every occurrence of `sep`, modelling
`str::split` (used for `raw.split('#').next()` and for `lines()`). -/
def splitOnChar (sep : Char) : List Char → List (List Char)
  | [] => [[]]
  | c :: cs =>
    if c = sep then [] :: splitOnChar sep cs
    else
      match splitOnChar sep cs with
      | [] => [[c]]
      | p :: ps => (c :: p) :: ps

/-- Embedding of `entry_name(path)` (`src/main.rs` lines 1633-1639):
`Path::file_name` is modelled (for Unix paths) as the last path component
that is neither empty nor `"."`; a missing file name, or a trailing `".."`,
falls back to the whole path. -/
def entry_name (path : String) : String :=
  let comps := (splitOnChar '/' path.data).filter fun c => !c.isEmpty && c ≠ ['.']
  match comps.getLast? with
  | some c => if c = ['.', '.'] then path else String.mk c
  | none => path

/-- Embedding of `match_score_for_path(token, path)` (`src/main.rs` lines
1167-1182): try the leaf name first; only on failure score the full path,
adding 2 to the `kind_penalty` component. -/
def match_score_for_path (token path : String) : Option Score :=
  match match_score token (entry_name path) with
  | some score => some score
  | none =>
    (match_score token path).map fun score =>
      (score.1 + 2, score.2.1, score.2.2.1, score.2.2.2.1, score.2.2.2.2)

/-- Lexicographic comparison of five-component scores, modelling the derived
`Ord` on Rust tuples (compare componentwise, earlier components dominate). -/
def scoreCmp (a b : Score) : Ordering :=
  (compare a.1 b.1).then
    ((compare a.2.1 b.2.1).then
      ((compare a.2.2.1 b.2.2.1).then
        ((compare a.2.2.2.1 b.2.2.2.1).then (compare a.2.2.2.2 b.2.2.2.2))))

/-- Embedding of `compute_list_window_offset(selected, current_offset,
height, total)` (`src/main.rs` lines 1537-1559). -/
def compute_list_window_offset (selected current_offset height total : Nat) : Nat :=
  if total = 0 ∨ height = 0 then 0
  else
    let offset0 := min current_offset (total - 1)
    let offset1 :=
      if selected < offset0 then selected
      else if selected ≥ offset0 + height then selected + 1 - height
      else offset0
    let maxOffset := total - height
    if offset1 > maxOffset then maxOffset else offset1

/-- Accumulating word splitter over characters, modelling
`str::split_whitespace` (no empty words are produced). -/
def wordsAux : List Char → List Char → List (List Char)
  | [], acc => if acc.isEmpty then [] else [acc.reverse]
  | c :: cs, acc =>
    if isWs c then
      if acc.isEmpty then wordsAux cs []
      else acc.reverse :: wordsAux cs []
    else wordsAux cs (c :: acc)

/-- Modelling `query.split_whitespace()` as a list of words. -/
def splitWhitespace (s : String) : List String :=
  (wordsAux s.data []).map String.mk

/-- Embedding of the `QueryTokens` struct (`src/main.rs` lines 1042-1057):
`folder` holds `@`-scoped tokens, `tags` holds `#`-scoped tokens, `any`
holds unprefixed tokens. -/
structure QueryTokens where
  folder : List String
  tags : List String
  any : List String
deriving DecidableEq

/-- Embedding of `QueryTokens::is_empty`. -/
def QueryTokens.isEmpty (t : QueryTokens) : Bool :=
  t.folder.isEmpty && t.tags.isEmpty && t.any.isEmpty

/-- Embedding of `QueryTokens::needs_tags`. -/
def QueryTokens.needsTags (t : QueryTokens) : Bool :=
  !t.tags.isEmpty || !t.any.isEmpty

/-- Embedding of `parse_query_tokens(query)` (`src/main.rs` lines
1059-1075): whitespace-split the query and classify each word by its `@` or
`#` sigil, discarding empty bodies. -/
def parse_query_tokens (query : String) : QueryTokens :=
  (splitWhitespace query).foldl
    (fun tokens raw =>
      match raw.data with
      | '@' :: rest =>
        if rest.isEmpty then tokens
        else { tokens with folder := tokens.folder ++ [String.mk rest] }
      | '#' :: rest =>
        if rest.isEmpty then tokens
        else { tokens with tags := tokens.tags ++ [String.mk rest] }
      | _ =>
        if raw.data.isEmpty then tokens
        else { tokens with any := tokens.any ++ [raw] })
    ⟨[], [], []⟩

/-- Lookup in an association-list model of `HashMap<String, Vec<String>>`,
returning the empty tag list when the path is absent (`unwrap_or(&[])`). -/
def tagsGetD (tag_cache : List (String × List String)) (path : String) : List String :=
  ((tag_cache.find? fun e => e.1 == path).map fun e => e.2).getD []

/-- Embedding of `matches_path_token(token, path)` (`src/main.rs` lines
1101-1104). -/
def matches_path_token (token path : String) : Bool :=
  fuzzy_match token (entry_name path) || fuzzy_match token path

/-- Embedding of `matches_tokens(path, tags, tokens)` (`src/main.rs` lines
1077-1099). -/
def matches_tokens (path : String) (tags : List String) (tokens : QueryTokens) : Bool :=
  (tokens.folder.all fun token => matches_path_token token path) &&
  (tokens.tags.all fun token => tags.any fun tag => fuzzy_match token tag) &&
  (tokens.any.all fun token =>
    matches_path_token token path || tags.any fun tag => fuzzy_match token tag)

/-- Embedding of the `SortMeta` struct (`src/main.rs` lines 52-56): optional
modification/creation epochs, both absent by default. -/
structure SortMeta where
  modified_epoch : Option Int := none
  created_epoch : Option Int := none
deriving DecidableEq

/-- Embedding of the `SortMode` enum (`src/main.rs` lines 89-98). -/
inductive SortMode where
  | Match
  | AlphaAsc
  | AlphaDesc
  | CreatedAsc
  | CreatedDesc
  | ModifiedAsc
  | ModifiedDesc
deriving DecidableEq

/-- Embedding of the `TimeField` enum (`src/main.rs` lines 1245-1249). -/
inductive TimeField where
  | Created
  | Modified
deriving DecidableEq

/-- Lookup in an association-list model of `HashMap<String, SortMeta>` with
`copied().unwrap_or_default()`. -/
def metaGetD (meta_cache : List (String × SortMeta)) (path : String) : SortMeta :=
  ((meta_cache.find? fun e => e.1 == path).map fun e => e.2).getD {}

/-- Lexicographic comparison of character lists by code point, modelling
`str::cmp` (UTF-8 byte order agrees with code-point order). -/
def charsCmp : List Char → List Char → Ordering
  | [], [] => Ordering.eq
  | [], _ :: _ => Ordering.lt
  | _ :: _, [] => Ordering.gt
  | a :: moreA, b :: moreB => (compare a.toNat b.toNat).then (charsCmp moreA moreB)

/-- Embedding of `compare_names(left, right)` (`src/main.rs` lines
1239-1243): case-insensitive leaf comparison with full-path tie-break. -/
def compare_names (left right : String) : Ordering :=
  (charsCmp ((entry_name left).data.map lowerChar)
      ((entry_name right).data.map lowerChar)).then
    (charsCmp left.data right.data)

/-- Embedding of `compare_time(left, right, meta_cache, field)`
(`src/main.rs` lines 1251-1274): present epochs compare by value, a present
epoch orders below an absent one, two absent epochs are equal. -/
def compare_time (left right : String) (meta_cache : List (String × SortMeta))
    (field : TimeField) : Ordering :=
  let leftMeta := metaGetD meta_cache left
  let rightMeta := metaGetD meta_cache right
  let leftTime := match field with
    | TimeField.Created => leftMeta.created_epoch
    | TimeField.Modified => leftMeta.modified_epoch
  let rightTime := match field with
    | TimeField.Created => rightMeta.created_epoch
    | TimeField.Modified => rightMeta.modified_epoch
  match leftTime, rightTime with
  | some a, some b => compare a b
  | some _, none => Ordering.lt
  | none, some _ => Ordering.gt
  | none, none => Ordering.eq

/-- Embedding of `compare_indices(left, right, items, sort_mode, meta_cache)`
(`src/main.rs` lines 1208-1237); note that the `Desc` arms swap the
arguments of `compare_time` wholesale. -/
def compare_indices (left right : Nat) (items : List String) (sort_mode : SortMode)
    (meta_cache : List (String × SortMeta)) : Ordering :=
  let leftPath := items.getD left ""
  let rightPath := items.getD right ""
  match sort_mode with
  | SortMode.Match => compare_names leftPath rightPath
  | SortMode.AlphaAsc => compare_names leftPath rightPath
  | SortMode.AlphaDesc => compare_names rightPath leftPath
  | SortMode.CreatedAsc =>
    (compare_time leftPath rightPath meta_cache TimeField.Created).then
      (compare_names leftPath rightPath)
  | SortMode.CreatedDesc =>
    (compare_time rightPath leftPath meta_cache TimeField.Created).then
      (compare_names leftPath rightPath)
  | SortMode.ModifiedAsc =>
    (compare_time leftPath rightPath meta_cache TimeField.Modified).then
      (compare_names leftPath rightPath)
  | SortMode.ModifiedDesc =>
    (compare_time rightPath leftPath meta_cache TimeField.Modified).then
      (compare_names leftPath rightPath)

/-- Embedding of `sort_indices` (`src/main.rs` lines 1199-1206): Rust's
stable `sort_by` is modelled by `List.mergeSort` (also stable) with
`le a b := compare_indices a b ≠ Greater`. -/
def sort_indices (indices : List Nat) (items : List String) (sort_mode : SortMode)
    (meta_cache : List (String × SortMeta)) : List Nat :=
  indices.mergeSort fun a b =>
    decide (compare_indices a b items sort_mode meta_cache ≠ Ordering.gt)

/-- Embedding of `filter_indices(items, query, tag_cache)` (`src/main.rs`
lines 996-1017): an empty token set keeps everything; otherwise keep the
indices of items accepted by `matches_tokens`. -/
def filter_indices (items : List String) (query : String)
    (tag_cache : List (String × List String)) : List Nat :=
  let tokens := parse_query_tokens query
  if tokens.isEmpty then List.range items.length
  else
    (List.range items.length).filter fun index =>
      matches_tokens (items.getD index "") (tagsGetD tag_cache (items.getD index ""))
        tokens

/-- Embedding of the min-score accumulation (`Ord::min` on Rust tuples). -/
def scoreMin (a b : Score) : Score :=
  if scoreCmp a b ≠ Ordering.gt then a else b

/-- Embedding of `best_tag_score(token, tags)` (`src/main.rs` lines
1154-1165). -/
def best_tag_score (token : String) (tags : List String) : Option Score :=
  tags.foldl
    (fun best tag =>
      match match_score token tag with
      | some score =>
        match best with
        | some current => some (scoreMin current score)
        | none => some score
      | none => best)
    none

/-- Componentwise sum of two scores (the source accumulates each of the five
components with `saturating_add`; `Nat` addition never overflows). -/
def addScore (a b : Score) : Score :=
  (a.1 + b.1, a.2.1 + b.2.1, a.2.2.1 + b.2.2.1, a.2.2.2.1 + b.2.2.2.1,
    a.2.2.2.2 + b.2.2.2.2)

/-- Score of a generic token: the better of its path score and its best tag
score, the `tokens.any` loop body of `match_score_tokens`. -/
def score_for_any_token (token path : String) (tags : List String) : Option Score :=
  let pathScore := match_score_for_path token path
  match best_tag_score token tags with
  | some tagScore =>
    match pathScore with
    | some ps => some (scoreMin ps tagScore)
    | none => some tagScore
  | none => pathScore

/-- Embedding of `match_score_tokens(tokens, path, tags)` (`src/main.rs`
lines 1106-1152): every token must score, and the five components are summed
across all tokens. -/
def match_score_tokens (tokens : QueryTokens) (path : String) (tags : List String) :
    Option Score :=
  match tokens.folder.mapM (fun token => match_score_for_path token path) with
  | none => none
  | some folderScores =>
    match tokens.tags.mapM (fun token => best_tag_score token tags) with
    | none => none
    | some tagScores =>
      match tokens.any.mapM (fun token => score_for_any_token token path tags) with
      | none => none
      | some anyScores =>
        some ((folderScores ++ tagScores ++ anyScores).foldl addScore (0, 0, 0, 0, 0))

/-- Embedding of `filter_and_sort_by_match(items, query, tag_cache)`
(`src/main.rs` lines 1019-1040): empty token set keeps the original order;
otherwise matching items are sorted by composite score with original index
as tie-break. -/
def filter_and_sort_by_match (items : List String) (query : String)
    (tag_cache : List (String × List String)) : List Nat :=
  let tokens := parse_query_tokens query
  if tokens.isEmpty then List.range items.length
  else
    let scored := (List.range items.length).filterMap fun index =>
      let path := items.getD index ""
      let tags := tagsGetD tag_cache path
      if matches_tokens path tags tokens then
        (match_score_tokens tokens path tags).map fun score => (index, score)
      else none
    (scored.mergeSort fun a b =>
      decide (((scoreCmp a.2 b.2).then (compare a.1 b.1)) ≠ Ordering.gt)).map
      fun e => e.1

/-- Embedding of `filter_and_sort(items, query, sort_mode, meta_cache,
tag_cache)` (`src/main.rs` lines 1184-1197). -/
def filter_and_sort (items : List String) (query : String) (sort_mode : SortMode)
    (meta_cache : List (String × SortMeta)) (tag_cache : List (String × List String)) :
    List Nat :=
  if sort_mode = SortMode.Match then filter_and_sort_by_match items query tag_cache
  else sort_indices (filter_indices items query tag_cache) items sort_mode meta_cache

/-- Embedding of `adjust_selected_index(current, len)` (`src/main.rs` lines
1527-1535): clamp the index into `[0, len-1]`, 0 when the list is empty. -/
def adjust_selected_index (current len : Nat) : Nat :=
  if len = 0 then 0 else if current ≥ len then len - 1 else current

/-- Embedding of `index_for_path(items, filtered, path)` (`src/main.rs` lines
1276-1283): position of the first filtered entry whose item equals the
path. -/
def index_for_path (items : List String) : List Nat → String → Option Nat
  | [], _ => none
  | index :: rest, path =>
    if ((items.get? index).map fun candidate => candidate == path).getD false then
      some 0
    else (index_for_path items rest path).map (· + 1)

/-- Embedding of `current_selection_path(items, filtered, selected)`
(`src/main.rs` lines 1641-1646). -/
def current_selection_path (items : List String) (filtered : List Nat)
    (selected : Nat) : Option String :=
  (filtered.get? selected).bind fun index => items.get? index

/-- Model of the re-evaluation blocks of the session loop (`src/main.rs`
lines 451-467 and 835-849): capture the currently selected path, recompute
the filtered list, then re-resolve the selection - the path's position when
it is still present, otherwise `unwrap_or(0)`; the numeric clamp is used
only when nothing was selected. -/
def reEvaluate (items : List String) (query : String) (sort_mode : SortMode)
    (meta_cache : List (String × SortMeta)) (tag_cache : List (String × List String))
    (oldFiltered : List Nat) (oldSelected : Nat) : List Nat × Nat :=
  let selectedPath := current_selection_path items oldFiltered oldSelected
  let filtered := filter_and_sort items query sort_mode meta_cache tag_cache
  let selected := match selectedPath with
    | some path => (index_for_path items filtered path).getD 0
    | none => adjust_selected_index oldSelected filtered.length
  (filtered, selected)

/-- Membership of a path among the keys of an association-list cache,
modelling `HashMap::contains_key`. -/
def cacheHasKey (cache : List (String × List String)) (path : String) : Bool :=
  cache.any fun e => e.1 == path

/-- Shared scan of a path batch against a `(cache, in_flight)` pair - the
identical loop bodies of `ensure_tags_for_paths` and `spawn_bulk_tag_fetch`
(`src/main.rs` lines 1685-1732): a path already cached or in flight is
skipped; every other path is inserted into the in-flight set and collected.
Returns the grown in-flight set and the collected paths in order. -/
def tagFetchScan (cache : List (String × List String)) :
    List String → List String → List String × List String
  | [], inFlight => (inFlight, [])
  | p :: rest, inFlight =>
    if cacheHasKey cache p || inFlight.contains p then tagFetchScan cache rest inFlight
    else
      let next := tagFetchScan cache rest (p :: inFlight)
      (next.1, p :: next.2)

/-- Embedding of `ensure_tags_for_paths` (`src/main.rs` lines 1685-1706): the
second component lists the paths for which a one-shot background job is
spawned. -/
def ensure_tags_for_paths (paths : List String) (cache : List (String × List String))
    (inFlight : List String) : List String × List String :=
  tagFetchScan cache paths inFlight

/-- Embedding of `spawn_bulk_tag_fetch` (`src/main.rs` lines 1708-1732): the
second component is the single bulk job (the missing-path list), or `none`
when nothing is missing and no thread is spawned. -/
def spawn_bulk_tag_fetch (items : List String) (cache : List (String × List String))
    (inFlight : List String) : List String × Option (List String) :=
  let scan := tagFetchScan cache items inFlight
  (scan.1, if scan.2.isEmpty then none else some scan.2)

/-- Membership of a path among the keys of the date cache
(`HashMap<String, String>`), modelling `HashMap::contains_key`. -/
def dateCacheHasKey (cache : List (String × String)) (path : String) : Bool :=
  cache.any fun e => e.1 == path

/-- Shared scan of a path batch against the date `(cache, in_flight)` pair -
the identical loop bodies of `ensure_dates_for_paths` and
`spawn_bulk_metadata_fetch` (`src/main.rs` lines 1665-1683 and 1809-1833):
a path already cached or in flight is skipped; every other path is inserted
into the in-flight set and collected. -/
def dateFetchScan (cache : List (String × String)) :
    List String → List String → List String × List String
  | [], inFlight => (inFlight, [])
  | p :: rest, inFlight =>
    if dateCacheHasKey cache p || inFlight.contains p then
      dateFetchScan cache rest inFlight
    else
      let next := dateFetchScan cache rest (p :: inFlight)
      (next.1, p :: next.2)

/-- Embedding of `ensure_dates_for_paths` (`src/main.rs` lines 1665-1683):
the second component lists the paths for which a one-shot background
metadata job is spawned. -/
def ensure_dates_for_paths (paths : List String) (cache : List (String × String))
    (inFlight : List String) : List String × List String :=
  dateFetchScan cache paths inFlight

/-- Embedding of `spawn_bulk_metadata_fetch` (`src/main.rs` lines
1809-1833): the second component is the single bulk job (the missing-path
list), or `none` when nothing is missing and no thread is spawned. -/
def spawn_bulk_metadata_fetch (items : List String) (cache : List (String × String))
    (inFlight : List String) : List String × Option (List String) :=
  let scan := dateFetchScan cache items inFlight
  (scan.1, if scan.2.isEmpty then none else some scan.2)

/-- Whitespace trim on both ends of a character list, modelling
`str::trim` on ASCII. -/
def trimChars (l : List Char) : List Char :=
  ((l.dropWhile isWs).reverse.dropWhile isWs).reverse

/-- Whitespace trim of the right end only, modelling `str::trim_end`. -/
def trimRightChars (l : List Char) : List Char :=
  (l.reverse.dropWhile isWs).reverse

/-- Split a character list at the first occurrence of `sep`, modelling
`str::find(sep)` followed by slicing before/after it. -/
def breakOnChar (sep : Char) : List Char → Option (List Char × List Char)
  | [] => none
  | c :: cs =>
    if c = sep then some ([], cs)
    else (breakOnChar sep cs).map fun p => (c :: p.1, p.2)

/-- Embedding of `str::lines()`: split on newlines, drop the final empty
segment produced by a trailing newline, strip one trailing `\r` per line. -/
def rustLines (l : List Char) : List (List Char) :=
  let parts := splitOnChar '\n' l
  let parts := if parts.getLast? = some [] then parts.dropLast else parts
  parts.map fun line => if line.getLast? = some '\r' then line.dropLast else line

/-- Embedding of `raw.split('#').next().unwrap_or("")`: the part of a line
before its first `#`. -/
def stripComment (l : List Char) : List Char :=
  (splitOnChar '#' l).headD []

/-- Embedding of the line loop of `parse_tags_from_toml` (`src/main.rs`
lines 1747-1781): scan for a top-level `tags = ...` assignment, accumulate
the bracketed value (possibly across lines, a space between pieces) into the
buffer, and stop at the first `]`. -/
def parseLinesGo : List (List Char) → Bool → List Char → List Char
  | [], _, buffer => buffer
  | l :: ls, inTags, buffer =>
    let cleaned := stripComment l
    let trimmed := trimChars cleaned
    if trimmed.isEmpty then parseLinesGo ls inTags buffer
    else if inTags then
      let buffer2 := buffer ++ trimmed ++ [' ']
      if trimmed.contains ']' then buffer2 else parseLinesGo ls true buffer2
    else
      match breakOnChar '=' trimmed with
      | some (beforeEq, afterEq) =>
        if trimChars beforeEq = ['t', 'a', 'g', 's'] then
          let value := trimChars afterEq
          let buffer2 := buffer ++ value ++ [' ']
          if value.contains ']' then buffer2
          else parseLinesGo ls (value.contains '[') buffer2
        else parseLinesGo ls inTags buffer
      | none => parseLinesGo ls inTags buffer

/-- State machine of `extract_quoted_strings` (`src/main.rs` lines
1789-1807): outside a quote (`none`) characters are skipped until a `"`;
inside a quote (`some acc`, reversed accumulator) characters are gathered
until the closing `"` or the end of input, and nonempty texts are emitted. -/
def extractQSAux : List Char → Option (List Char) → List String
  | [], none => []
  | [], some acc => if acc.isEmpty then [] else [String.mk acc.reverse]
  | c :: cs, none =>
    if c = '"' then extractQSAux cs (some []) else extractQSAux cs none
  | c :: cs, some acc =>
    if c = '"' then
      if acc.isEmpty then extractQSAux cs none
      else String.mk acc.reverse :: extractQSAux cs none
    else extractQSAux cs (some (c :: acc))

/-- Embedding of `extract_quoted_strings(value)`. -/
def extract_quoted_strings (value : List Char) : List String :=
  extractQSAux value none

/-- Embedding of `parse_tags_from_toml(contents)` (`src/main.rs` lines
1747-1787). -/
def parse_tags_from_toml (contents : String) : List String :=
  let buffer := parseLinesGo (rustLines contents.data) false []
  if buffer.isEmpty then [] else extract_quoted_strings buffer

/-- Embedding of `tag.replace('"', "\\\"")`: escape every double quote with
a backslash. -/
def escapeQuotes (l : List Char) : List Char :=
  l.flatMap fun c => if c = '"' then ['\\', '"'] else [c]

/-- Embedding of `format_tags(tags)` (`src/main.rs` lines 2154-2159): quote
and escape each tag, join with a comma and a space. -/
def format_tags : List String → List Char
  | [] => []
  | [t] => '"' :: (escapeQuotes t.data ++ ['"'])
  | t :: rest => '"' :: (escapeQuotes t.data ++ ['"', ',', ' '] ++ format_tags rest)

/-- The serialized `tags = [...]` line of `write_tags_into_toml`. -/
def tags_line (tags : List String) : List Char :=
  ['t', 'a', 'g', 's', ' ', '=', ' ', '['] ++ format_tags tags ++ [']']

/-- Scan for the line closing a multi-line `tags = [` assignment: the first
subsequent line containing `]` after comment stripping (`src/main.rs` lines
2132-2135). -/
def findCloseFrom : List (List Char) → Nat → Option Nat
  | [], _ => none
  | l :: ls, idx =>
    if (stripComment l).contains ']' then some idx else findCloseFrom ls (idx + 1)

/-- Scan for the line range of an existing `tags = ...` assignment
(`src/main.rs` lines 2117-2136): the first line whose comment-stripped text
has a `tags` key before its first `=`; the range closes on the same line if
it contains `]`, otherwise at the first later line that does. -/
def findTagsRange : List (List Char) → Nat → Option (Nat × Option Nat)
  | [], _ => none
  | l :: ls, idx =>
    let cleaned := stripComment l
    match breakOnChar '=' cleaned with
    | some (beforeEq, _) =>
      if trimChars beforeEq = ['t', 'a', 'g', 's'] then
        if cleaned.contains ']' then some (idx, some idx)
        else some (idx, findCloseFrom ls (idx + 1))
      else findTagsRange ls (idx + 1)
    | none => findTagsRange ls (idx + 1)

/-- Embedding of `lines.join("\n")`. -/
def joinSep (sep : Char) : List (List Char) → List Char
  | [] => []
  | [l] => l
  | l :: rest => l ++ sep :: joinSep sep rest

/-- Embedding of `write_tags_into_toml(contents, tags)` (`src/main.rs` lines
2110-2152): empty contents become just the serialized line; an existing
`tags` assignment's line range is spliced out and replaced; otherwise the
line is appended after the trimmed contents. -/
def write_tags_into_toml (contents : String) (tags : List String) : String :=
  let line := tags_line tags
  if (trimChars contents.data).isEmpty then String.mk (line ++ ['\n'])
  else
    let lns := rustLines contents.data
    match findTagsRange lns 0 with
    | none => String.mk (trimRightChars contents.data ++ '\n' :: (line ++ ['\n']))
    | some (start, endOpt) =>
      let endIdx := endOpt.getD start
      let newLines := lns.take start ++ [line] ++ lns.drop (endIdx + 1)
      String.mk (joinSep '\n' newLines ++ ['\n'])

/-- Lexicographic order on character lists by code point, modelling the
derived `Ord` on Rust `String` (UTF-8 byte order agrees with code-point
order). -/
def charsLe : List Char → List Char → Bool
  | [], _ => true
  | _ :: _, [] => false
  | a :: moreA, b :: moreB =>
    if a = b then charsLe moreA moreB else decide (a.toNat < b.toNat)

/-- String comparison wrapper for `charsLe`. -/
def strLeB (a b : String) : Bool :=
  charsLe a.data b.data

/-- ASCII-lowercased copy of a string, modelling `str::to_lowercase` on
ASCII. -/
def lowerStr (s : String) : String :=
  String.mk (s.data.map lowerChar)

/-- Embedding of `input.value().trim()` as a string-valued trim. -/
def rustTrim (s : String) : String :=
  String.mk (trimChars s.data)

/-- Embedding of `s.starts_with(pat)`. -/
def startsWithStr (s pat : String) : Bool :=
  pat.data.isPrefixOf s.data

/-- Embedding of `collect_tag_suggestions(tag_cache)` (`src/main.rs` lines
2063-2076): gather every cached tag except those with the reserved `org/`
sigil, deduplicate (the source's `HashSet`), and sort ascending; `mergeSort`
with a total order models `Vec::sort`. -/
def collect_tag_suggestions (tag_cache : List (String × List String)) : List String :=
  let all := (tag_cache.flatMap fun e => e.2).filter fun tag =>
    !startsWithStr tag "org/"
  (all.dedup).mergeSort strLeB

/-- Embedding of `commit_tag_input(input, tags, suggestions)` (`src/main.rs`
lines 2078-2095): trim the pending input; an empty result is a no-op;
otherwise the first suggestion with the input as a case-insensitive
leading piece replaces the typed text, the result is appended to the
working set unless already present (exact equality), and the input buffer
is cleared. -/
def commit_tag_input (input : String) (tags : List String)
    (suggestions : List String) : String × List String :=
  let raw := rustTrim input
  if raw.data.isEmpty then (input, tags)
  else
    let lower := lowerStr raw
    let chosen :=
      match suggestions.find? fun tag => startsWithStr (lowerStr tag) lower with
      | some matchTag => matchTag
      | none => raw
    let newTags := if tags.contains chosen then tags else tags ++ [chosen]
    ("", newTags)

/-- Association-list model of `HashMap::insert`: the new binding shadows and
removes any previous binding for the same key. -/
def cacheInsert (cache : List (String × List String)) (path : String)
    (tags : List String) : List (String × List String) :=
  (path, tags) :: cache.filter fun e => !(e.1 == path)

/-- Model of the `Enter` branch of the `TagEdit` focus (`src/main.rs` lines
820-850): the pending input is committed into the working tag set, the
sidecar write result is consumed through the `?` operator - an `Err` here
propagates out of `select_from_list`, ending the interactive session - and
only after an `Ok` write is the tag cache entry updated. -/
def tagEditEnterStep (tagInput : String) (workingTags : List String)
    (suggestions : List String) (editPath : Option String)
    (tagCache : List (String × List String)) (writeResult : Except String Unit) :
    Except String (List (String × List String)) :=
  let committed := commit_tag_input tagInput workingTags suggestions
  match editPath with
  | none => Except.ok tagCache
  | some path =>
    match writeResult with
    | Except.error e => Except.error e
    | Except.ok _ => Except.ok (cacheInsert tagCache path committed.2)

theorem fuzzyChars_iff : ∀ (ts qs : List Char),
    fuzzyChars qs ts = true ↔ (qs.map lowerChar).Sublist (ts.map lowerChar) := by
  intro ts
  induction ts with
  | nil =>
    intro qs
    cases qs with
    | nil => simp [fuzzyChars]
    | cons q qs => simp [fuzzyChars]
  | cons t ts ih =>
    intro qs
    cases qs with
    | nil => simp [fuzzyChars, List.nil_sublist]
    | cons q qs =>
      by_cases h : lowerChar q = lowerChar t
      · rw [fuzzyChars, if_pos h]
        simp only [List.map_cons, h]
        constructor
        · intro hf
          exact List.Sublist.cons₂ _ ((ih qs).mp hf)
        · intro hs
          apply (ih qs).mpr
          rcases List.sublist_cons_iff.mp hs with h2 | ⟨r, hr, h2⟩
          · exact List.sublist_of_cons_sublist h2
          · cases hr; exact h2
      · rw [fuzzyChars, if_neg h]
        simp only [List.map_cons]
        constructor
        · intro hf
          have := (ih (q :: qs)).mp hf
          simp only [List.map_cons] at this
          exact List.Sublist.cons _ this
        · intro hs
          apply (ih (q :: qs)).mpr
          simp only [List.map_cons]
          rcases List.sublist_cons_iff.mp hs with h2 | ⟨r, hr, h2⟩
          · exact h2
          · exact absurd (List.head_eq_of_cons_eq hr) h

theorem greedyPos_length_le : ∀ (ts qs : List Char) (i : Nat),
    (greedyPos qs ts i).length ≤ qs.length := by
  intro ts
  induction ts with
  | nil => intro qs i; cases qs <;> simp [greedyPos]
  | cons t ts ih =>
    intro qs i
    cases qs with
    | nil => simp [greedyPos]
    | cons q qs =>
      by_cases h : lowerChar q = lowerChar t
      · rw [greedyPos, if_pos h]
        simpa using ih qs (i + 1)
      · rw [greedyPos, if_neg h]
        exact ih (q :: qs) (i + 1)

theorem greedyPos_complete_iff : ∀ (ts qs : List Char) (i : Nat),
    ((greedyPos qs ts i).length = qs.length) ↔ fuzzyChars qs ts = true := by
  intro ts
  induction ts with
  | nil => intro qs i; cases qs <;> simp [greedyPos, fuzzyChars]
  | cons t ts ih =>
    intro qs i
    cases qs with
    | nil => simp [greedyPos, fuzzyChars]
    | cons q qs =>
      by_cases h : lowerChar q = lowerChar t
      · rw [greedyPos, if_pos h, fuzzyChars, if_pos h]
        simpa using ih qs (i + 1)
      · rw [greedyPos, if_neg h, fuzzyChars, if_neg h]
        exact ih (q :: qs) (i + 1)

theorem isPrefixOf_sublist : ∀ (n t : List Char), n.isPrefixOf t = true → n.Sublist t := by
  intro n
  induction n with
  | nil => intro t _; exact List.nil_sublist t
  | cons a as ih =>
    intro t h
    cases t with
    | nil => simp [List.isPrefixOf] at h
    | cons b bs =>
      simp only [List.isPrefixOf, Bool.and_eq_true, beq_iff_eq] at h
      exact h.1 ▸ List.Sublist.cons₂ _ (ih bs h.2)

theorem substrIdx_sublist : ∀ (t n : List Char) (i : Nat),
    substrIdx n t = some i → n.Sublist t := by
  intro t
  induction t with
  | nil =>
    intro n i h
    cases n with
    | nil => exact List.Sublist.refl _
    | cons a as => simp [substrIdx] at h
  | cons c cs ih =>
    intro n i h
    rw [substrIdx] at h
    by_cases hp : n.isPrefixOf (c :: cs) = true
    · exact isPrefixOf_sublist _ _ hp
    · rw [if_neg hp] at h
      cases hsub : substrIdx n cs with
      | none => rw [hsub] at h; simp at h
      | some j => exact List.Sublist.cons _ (ih n j hsub)

/-- C5: `fuzzy_match(query, text)` is true iff the whitespace-stripped
characters of the query occur, case-insensitively, as a subsequence of the
text; and whenever they do not, `fuzzy_match` is false and `match_score`
returns `None`. -/
theorem fuzzy_match_subsequence_contract (q t : String) :
    (fuzzy_match q t = true ↔
      ((q.data.filter fun c => !isWs c).map lowerChar).Sublist
        (t.data.map lowerChar)) ∧
    (¬ ((q.data.filter fun c => !isWs c).map lowerChar).Sublist
        (t.data.map lowerChar) →
      fuzzy_match q t = false ∧ match_score q t = none) := by
  constructor
  · exact fuzzyChars_iff t.data (q.data.filter fun c => !isWs c)
  · intro hno
    have hfalse : fuzzy_match q t = false := by
      cases hfm : fuzzy_match q t with
      | false => rfl
      | true =>
        exact absurd ((fuzzyChars_iff t.data _).mp hfm) hno
    refine ⟨hfalse, ?_⟩
    rw [match_score]
    have hq : (q.data.filter fun c => !isWs c) ≠ [] := by
      intro hnil
      apply hno
      rw [hnil]
      exact List.nil_sublist _
    rw [if_neg (by simpa using hq)]
    have hfind : find_case_insensitive t q = none := by
      rw [find_case_insensitive]
      have hqd : ¬ q.data.isEmpty = true := by
        intro hq0
        apply hq
        cases hd : q.data with
        | nil => simp [hd]
        | cons a l => rw [hd] at hq0; simp at hq0
      rw [if_neg hqd]
      cases hsub : substrIdx (q.data.map lowerChar) (t.data.map lowerChar) with
      | none => rfl
      | some i =>
        exfalso
        apply hno
        have h1 : ((q.data.filter fun c => !isWs c).map lowerChar).Sublist
            (q.data.map lowerChar) :=
          List.Sublist.map lowerChar (List.filter_sublist q.data)
        exact h1.trans (substrIdx_sublist _ _ i hsub)
    rw [hfind]
    have hlt : (greedyPos (q.data.filter fun c => !isWs c) t.data 0).length <
        (q.data.filter fun c => !isWs c).length := by
      rcases Nat.lt_or_ge (greedyPos (q.data.filter fun c => !isWs c) t.data 0).length
          (q.data.filter fun c => !isWs c).length with hl | hg
      · exact hl
      · exfalso
        have heq : (greedyPos (q.data.filter fun c => !isWs c) t.data 0).length =
            (q.data.filter fun c => !isWs c).length :=
          Nat.le_antisymm (greedyPos_length_le _ _ _) hg
        have := (greedyPos_complete_iff t.data _ 0).mp heq
        rw [fuzzy_match] at hfalse
        rw [this] at hfalse
        exact absurd hfalse (by simp)
    simp only [hlt, if_true]

/-- Witness for C5 at a concrete non-matching pair: the stripped query is not
a subsequence, so both the boolean matcher and the scorer reject. -/
theorem fuzzy_match_subsequence_contract_witness :
    fuzzy_match "zq" "/a/Projects" = false ∧ match_score "zq" "/a/Projects" = none :=
  (fuzzy_match_subsequence_contract "zq" "/a/Projects").2 (by decide)

/-- C9: `match_score_for_path` returns the leaf score unchanged when the leaf
matches, and otherwise the full-path score with exactly 2 added to the
`kind_penalty` component only; a leaf match therefore compares strictly lower
(better) than a path-only match built from the same base score. -/
theorem match_score_for_path_leaf_preference (tok p q : String) (s : Score)
    (hp : match_score tok (entry_name p) = some s) :
    match_score_for_path tok p = some s ∧
    (match_score tok (entry_name q) = none → match_score tok q = some s →
      match_score_for_path tok q =
        some (s.1 + 2, s.2.1, s.2.2.1, s.2.2.2.1, s.2.2.2.2) ∧
      scoreCmp s (s.1 + 2, s.2.1, s.2.2.1, s.2.2.2.1, s.2.2.2.2) = Ordering.lt) := by
  constructor
  · rw [match_score_for_path, hp]
  · intro hqn hqs
    constructor
    · rw [match_score_for_path, hqn, hqs]
      rfl
    · rw [scoreCmp]
      have h2 : compare s.1 (s.1 + 2) = Ordering.lt := Nat.compare_eq_lt.mpr (by omega)
      rw [h2]
      rfl

/-- Witness for C9: token `"x"` matches the leaf of `"/zxww"` with score
`(0,0,0,1,4)` and only the directory part of `"zx/b"` with the same base
score, which surfaces as `(2,0,0,1,4)`. -/
theorem match_score_for_path_leaf_preference_witness :
    match_score_for_path "x" "/zxww" = some (0, 0, 0, 1, 4) ∧
    match_score_for_path "x" "zx/b" = some (2, 0, 0, 1, 4) ∧
    scoreCmp (0, 0, 0, 1, 4) (2, 0, 0, 1, 4) = Ordering.lt := by
  have h := match_score_for_path_leaf_preference "x" "/zxww" "zx/b" (0, 0, 0, 1, 4)
    (by decide)
  exact ⟨h.1, (h.2 (by decide) (by decide)).1, (h.2 (by decide) (by decide)).2⟩

/-- C10: with a positive window height, a nonempty list and an in-range
selection, the computed offset keeps the selected row visible
(`offset ≤ selected < offset + height`), never exceeds `total - height` when
the list overflows the window, and is 0 when the whole list fits. -/
theorem compute_list_window_offset_keeps_selected_visible
    (selected current_offset height total : Nat)
    (hh : 0 < height) (ht : 0 < total) (hs : selected < total) :
    compute_list_window_offset selected current_offset height total ≤ selected ∧
    selected < compute_list_window_offset selected current_offset height total + height ∧
    (height ≤ total →
      compute_list_window_offset selected current_offset height total ≤ total - height) ∧
    (total ≤ height →
      compute_list_window_offset selected current_offset height total = 0) := by
  simp only [compute_list_window_offset]
  split_ifs <;> omega

/-- Witness for C10 at `selected = 5`, `current_offset = 0`, `height = 3`,
`total = 10`. -/
theorem compute_list_window_offset_keeps_selected_visible_witness :
    compute_list_window_offset 5 0 3 10 ≤ 5 ∧
    5 < compute_list_window_offset 5 0 3 10 + 3 ∧
    (3 ≤ 10 → compute_list_window_offset 5 0 3 10 ≤ 10 - 3) ∧
    (10 ≤ 3 → compute_list_window_offset 5 0 3 10 = 0) :=
  compute_list_window_offset_keeps_selected_visible 5 0 3 10 (by decide) (by decide)
    (by decide)

/-- C1 (amended): under the ascending time modes an item whose relevant epoch
is present compares below (sorts before) one whose epoch is absent, but the
descending modes swap the arguments of `compare_time` wholesale - including
its missing-epoch handling - so there the item missing its epoch sorts
first.  In the spec scenario the missing-timestamp item `/a/Downloads`
therefore precedes `/a/Projects` under `ModifiedDesc`. -/
theorem compare_time_missing_epoch_placement
    (items : List String) (meta_cache : List (String × SortMeta)) (l r : Nat)
    (mv cv : Int)
    (hm1 : (metaGetD meta_cache (items.getD l "")).modified_epoch = some mv)
    (hm2 : (metaGetD meta_cache (items.getD r "")).modified_epoch = none)
    (hc1 : (metaGetD meta_cache (items.getD l "")).created_epoch = some cv)
    (hc2 : (metaGetD meta_cache (items.getD r "")).created_epoch = none) :
    compare_indices l r items SortMode.ModifiedAsc meta_cache = Ordering.lt ∧
    compare_indices l r items SortMode.ModifiedDesc meta_cache = Ordering.gt ∧
    compare_indices l r items SortMode.CreatedAsc meta_cache = Ordering.lt ∧
    compare_indices l r items SortMode.CreatedDesc meta_cache = Ordering.gt ∧
    filter_and_sort ["/a/Projects", "/a/Downloads"] "" SortMode.ModifiedDesc
      [("/a/Projects", { modified_epoch := some 100 }), ("/a/Downloads", {})] [] =
      [1, 0] := by
  have hscen : filter_and_sort ["/a/Projects", "/a/Downloads"] "" SortMode.ModifiedDesc
      [("/a/Projects", { modified_epoch := some 100 }), ("/a/Downloads", {})] [] =
      [1, 0] := by
    simp +decide [filter_and_sort, filter_indices, sort_indices, List.mergeSort,
      List.range, List.range.loop, List.merge]
  have htm1 : compare_time (items.getD l "") (items.getD r "") meta_cache
      TimeField.Modified = Ordering.lt := by
    simp only [compare_time]
    rw [hm1, hm2]
  have htm2 : compare_time (items.getD r "") (items.getD l "") meta_cache
      TimeField.Modified = Ordering.gt := by
    simp only [compare_time]
    rw [hm1, hm2]
  have htc1 : compare_time (items.getD l "") (items.getD r "") meta_cache
      TimeField.Created = Ordering.lt := by
    simp only [compare_time]
    rw [hc1, hc2]
  have htc2 : compare_time (items.getD r "") (items.getD l "") meta_cache
      TimeField.Created = Ordering.gt := by
    simp only [compare_time]
    rw [hc1, hc2]
  refine ⟨?_, ?_, ?_, ?_, hscen⟩
  · simp only [compare_indices, htm1, Ordering.then]
  · simp only [compare_indices, htm2, Ordering.then]
  · simp only [compare_indices, htc1, Ordering.then]
  · simp only [compare_indices, htc2, Ordering.then]

/-- Witness for C1 (amended) at the spec scenario cache extended with a
created epoch. -/
theorem compare_time_missing_epoch_placement_witness :
    compare_indices 0 1 ["/a/Projects", "/a/Downloads"] SortMode.ModifiedAsc
      [("/a/Projects", { modified_epoch := some 100, created_epoch := some 50 }),
        ("/a/Downloads", {})] = Ordering.lt ∧
    compare_indices 0 1 ["/a/Projects", "/a/Downloads"] SortMode.ModifiedDesc
      [("/a/Projects", { modified_epoch := some 100, created_epoch := some 50 }),
        ("/a/Downloads", {})] = Ordering.gt := by
  have h := compare_time_missing_epoch_placement ["/a/Projects", "/a/Downloads"]
    [("/a/Projects", { modified_epoch := some 100, created_epoch := some 50 }),
      ("/a/Downloads", {})] 0 1 100 50 (by decide) (by decide) (by decide) (by decide)
  exact ⟨h.1, h.2.1⟩

/-- Counterexample for C1 as stated: in the spec scenario under
`ModifiedDesc` the item with a present epoch (`/a/Projects`, index 0) does
NOT appear before the item with a missing epoch (`/a/Downloads`, index 1);
the produced order is `[1, 0]`. -/
theorem modified_desc_missing_epoch_counterexample :
    filter_and_sort ["/a/Projects", "/a/Downloads"] "" SortMode.ModifiedDesc
      [("/a/Projects", { modified_epoch := some 100 }), ("/a/Downloads", {})] [] =
      [1, 0] ∧
    ¬ ((filter_and_sort ["/a/Projects", "/a/Downloads"] "" SortMode.ModifiedDesc
          [("/a/Projects", { modified_epoch := some 100 }), ("/a/Downloads", {})]
          []).indexOf 0 <
        (filter_and_sort ["/a/Projects", "/a/Downloads"] "" SortMode.ModifiedDesc
          [("/a/Projects", { modified_epoch := some 100 }), ("/a/Downloads", {})]
          []).indexOf 1) := by
  have h : filter_and_sort ["/a/Projects", "/a/Downloads"] "" SortMode.ModifiedDesc
      [("/a/Projects", { modified_epoch := some 100 }), ("/a/Downloads", {})] [] =
      [1, 0] := by
    simp +decide [filter_and_sort, filter_indices, sort_indices, List.mergeSort,
      List.range, List.range.loop, List.merge]
  refine ⟨h, ?_⟩
  rw [h]
  decide

/-- C2 (amended): with a query that parses to no tokens, the pipeline
includes every item (the result is a permutation of the full index range);
the original order is preserved under `Match` mode, while the other modes
re-order the range with the active comparator. -/
theorem filter_and_sort_empty_query
    (items : List String) (query : String) (sort_mode : SortMode)
    (meta_cache : List (String × SortMeta)) (tag_cache : List (String × List String))
    (hq : (parse_query_tokens query).isEmpty = true) :
    (filter_and_sort items query sort_mode meta_cache tag_cache).Perm
      (List.range items.length) ∧
    (sort_mode = SortMode.Match →
      filter_and_sort items query sort_mode meta_cache tag_cache =
        List.range items.length) := by
  by_cases hm : sort_mode = SortMode.Match
  · subst hm
    have heq : filter_and_sort items query SortMode.Match meta_cache tag_cache =
        List.range items.length := by
      rw [filter_and_sort, if_pos rfl]
      simp only [filter_and_sort_by_match]
      rw [if_pos hq]
    exact ⟨heq ▸ List.Perm.refl _, fun _ => heq⟩
  · have heq : filter_and_sort items query sort_mode meta_cache tag_cache =
        sort_indices (filter_indices items query tag_cache) items sort_mode
          meta_cache := by
      rw [filter_and_sort, if_neg hm]
    have hfi : filter_indices items query tag_cache = List.range items.length := by
      simp only [filter_indices]
      rw [if_pos hq]
    rw [heq, hfi, sort_indices]
    exact ⟨List.mergeSort_perm _ _, fun h => absurd h hm⟩

/-- Witness for C2 (amended) at the empty query with a two-item list under
`AlphaAsc`. -/
theorem filter_and_sort_empty_query_witness :
    (filter_and_sort ["/b", "/a"] "" SortMode.AlphaAsc [] []).Perm
      (List.range (["/b", "/a"] : List String).length) ∧
    (SortMode.AlphaAsc = SortMode.Match →
      filter_and_sort ["/b", "/a"] "" SortMode.AlphaAsc [] [] =
        List.range (["/b", "/a"] : List String).length) :=
  filter_and_sort_empty_query ["/b", "/a"] "" SortMode.AlphaAsc [] [] (by decide)

/-- Counterexample for C2 as stated: with an empty query under `AlphaAsc` and
the item list `["/b", "/a"]`, the pipeline returns `[1, 0]` - the comparator
order - rather than the original order `[0, 1]`. -/
theorem filter_and_sort_empty_query_counterexample :
    filter_and_sort ["/b", "/a"] "" SortMode.AlphaAsc [] [] = [1, 0] ∧
    filter_and_sort ["/b", "/a"] "" SortMode.AlphaAsc [] [] ≠ List.range 2 := by
  have h : filter_and_sort ["/b", "/a"] "" SortMode.AlphaAsc [] [] = [1, 0] := by
    simp +decide [filter_and_sort, filter_indices, sort_indices, List.mergeSort,
      List.range, List.range.loop, List.merge]
  exact ⟨h, by rw [h]; decide⟩

theorem index_for_path_spec (items : List String) :
    ∀ (filtered : List Nat) (path : String) (j : Nat),
      index_for_path items filtered path = some j →
      ∃ index, filtered.get? j = some index ∧ items.get? index = some path := by
  intro filtered
  induction filtered with
  | nil => intro path j h; simp [index_for_path] at h
  | cons index rest ih =>
    intro path j h
    rw [index_for_path] at h
    by_cases hc :
        (((items.get? index).map fun candidate => candidate == path).getD false) = true
    · rw [if_pos hc] at h
      cases h
      refine ⟨index, rfl, ?_⟩
      cases hg : items.get? index with
      | none => rw [hg] at hc; simp at hc
      | some c =>
        rw [hg] at hc
        simp at hc
        rw [hc]
    · rw [if_neg hc] at h
      cases hs : index_for_path items rest path with
      | none => rw [hs] at h; simp at h
      | some j0 =>
        rw [hs] at h
        simp at h
        rcases ih path j0 hs with ⟨idx, h1, h2⟩
        refine ⟨idx, ?_, h2⟩
        rw [← h]
        simpa using h1

theorem index_for_path_none (items : List String) :
    ∀ (filtered : List Nat) (path : String),
      index_for_path items filtered path = none ↔
        ∀ index ∈ filtered, ¬ items.get? index = some path := by
  intro filtered
  induction filtered with
  | nil => intro path; simp [index_for_path]
  | cons index rest ih =>
    intro path
    rw [index_for_path]
    by_cases hc :
        (((items.get? index).map fun candidate => candidate == path).getD false) = true
    · rw [if_pos hc]
      have hip : items.get? index = some path := by
        cases hg : items.get? index with
        | none => rw [hg] at hc; simp at hc
        | some c =>
          rw [hg] at hc
          simp at hc
          rw [hc]
      constructor
      · intro h
        simp at h
      · intro hall
        exact absurd hip (hall index (List.mem_cons_self index rest))
    · rw [if_neg hc]
      constructor
      · intro h idx hmem
        rcases List.mem_cons.mp hmem with hfst | hrest
        · subst hfst
          intro hget
          apply hc
          rw [hget]
          simp
        · cases hs : index_for_path items rest path with
          | none => exact (ih path).mp hs idx hrest
          | some j0 => rw [hs] at h; simp at h
      · intro hall
        cases hs : index_for_path items rest path with
        | none => rfl
        | some j0 =>
          exfalso
          rcases index_for_path_spec items rest path j0 hs with ⟨idx, h1, h2⟩
          exact hall idx (List.mem_cons_of_mem _ (List.get?_mem h1)) h2

/-- C3 (amended): whenever the session loop re-resolves the selection after
recomputing the filtered list (date/tag arrival, tag-edit commit), a still
present selected path resolves to its position in the new list, while an
absent one resolves to index 0 - not to the clamped previous index, which is
used only when no path was selected at all. -/
theorem reEvaluate_selection_resolution
    (items : List String) (query : String) (sort_mode : SortMode)
    (meta_cache : List (String × SortMeta)) (tag_cache : List (String × List String))
    (oldFiltered : List Nat) (oldSelected : Nat) (path : String)
    (hsel : current_selection_path items oldFiltered oldSelected = some path) :
    (∀ j, index_for_path items
        (reEvaluate items query sort_mode meta_cache tag_cache oldFiltered
          oldSelected).1 path = some j →
      (reEvaluate items query sort_mode meta_cache tag_cache oldFiltered
          oldSelected).2 = j ∧
      ∃ index, (reEvaluate items query sort_mode meta_cache tag_cache oldFiltered
          oldSelected).1.get? j = some index ∧ items.get? index = some path) ∧
    (index_for_path items
        (reEvaluate items query sort_mode meta_cache tag_cache oldFiltered
          oldSelected).1 path = none →
      (reEvaluate items query sort_mode meta_cache tag_cache oldFiltered
          oldSelected).2 = 0) ∧
    (index_for_path items
        (reEvaluate items query sort_mode meta_cache tag_cache oldFiltered
          oldSelected).1 path = none ↔
      ∀ index ∈ (reEvaluate items query sort_mode meta_cache tag_cache oldFiltered
          oldSelected).1, ¬ items.get? index = some path) := by
  refine ⟨?_, ?_, ?_⟩
  · intro j hj
    constructor
    · simp only [reEvaluate, hsel] at hj ⊢
      rw [hj]
      rfl
    · exact index_for_path_spec items _ path j hj
  · intro hnone
    simp only [reEvaluate, hsel] at hnone ⊢
    rw [hnone]
    rfl
  · exact index_for_path_none items _ path

/-- Witness for C3 (amended): after re-evaluation the still-present selected
path `"/q"` resolves to its position 1 in the new list. -/
theorem reEvaluate_selection_resolution_witness :
    (reEvaluate ["/p", "/q"] "" SortMode.AlphaAsc [] [] [0, 1] 1).2 = 1 := by
  have h := reEvaluate_selection_resolution ["/p", "/q"] "" SortMode.AlphaAsc [] []
    [0, 1] 1 "/q" (by decide)
  have hfp : index_for_path ["/p", "/q"]
      (reEvaluate ["/p", "/q"] "" SortMode.AlphaAsc [] [] [0, 1] 1).1 "/q" =
      some 1 := by
    simp +decide [reEvaluate, filter_and_sort, filter_indices, sort_indices,
      List.mergeSort, List.range, List.range.loop, List.merge, index_for_path,
      current_selection_path]
  exact (h.1 1 hfp).1

/-- Counterexample for C3 as stated: the previously selected path `"/r"`
is absent from the re-evaluated list `[0, 1]`; the code resolves the
selection to 0, whereas the claimed clamp of the previous index 2 into
`[0, len-1]` would give 1. -/
theorem reEvaluate_selection_clamp_counterexample :
    (reEvaluate ["/p", "/q", "/r"] "#t" SortMode.AlphaAsc []
        [("/p", ["t"]), ("/q", ["t"])] [0, 1, 2] 2).1 = [0, 1] ∧
    (reEvaluate ["/p", "/q", "/r"] "#t" SortMode.AlphaAsc []
        [("/p", ["t"]), ("/q", ["t"])] [0, 1, 2] 2).2 = 0 ∧
    adjust_selected_index 2
      (reEvaluate ["/p", "/q", "/r"] "#t" SortMode.AlphaAsc []
        [("/p", ["t"]), ("/q", ["t"])] [0, 1, 2] 2).1.length = 1 := by
  have h1 : (reEvaluate ["/p", "/q", "/r"] "#t" SortMode.AlphaAsc []
      [("/p", ["t"]), ("/q", ["t"])] [0, 1, 2] 2).1 = [0, 1] := by
    simp +decide [reEvaluate, filter_and_sort, filter_indices, sort_indices,
      List.mergeSort, List.range, List.range.loop, List.merge]
  have h2 : (reEvaluate ["/p", "/q", "/r"] "#t" SortMode.AlphaAsc []
      [("/p", ["t"]), ("/q", ["t"])] [0, 1, 2] 2).2 = 0 := by
    simp +decide [reEvaluate, filter_and_sort, filter_indices, sort_indices,
      List.mergeSort, List.range, List.range.loop, List.merge,
      current_selection_path, index_for_path]
  exact ⟨h1, h2, by rw [h1]; rfl⟩

theorem tagFetchScan_noop (cache : List (String × List String)) :
    ∀ (paths : List String) (inFlight : List String),
      (∀ p ∈ paths, cacheHasKey cache p = true ∨ p ∈ inFlight) →
      tagFetchScan cache paths inFlight = (inFlight, []) := by
  intro paths
  induction paths with
  | nil => intro fl _; rfl
  | cons q rest ih =>
    intro fl hall
    rw [tagFetchScan]
    have hq : (cacheHasKey cache q || fl.contains q) = true := by
      rcases hall q (List.mem_cons_self q rest) with h | h
      · simp [h]
      · simp [h]
    rw [if_pos hq]
    exact ih fl fun p hp => hall p (List.mem_cons_of_mem _ hp)

theorem tagFetchScan_no_dup_spawn (cache : List (String × List String)) (p : String) :
    ∀ (paths : List String) (inFlight : List String),
      (cacheHasKey cache p = true ∨ p ∈ inFlight) →
      p ∉ (tagFetchScan cache paths inFlight).2 := by
  intro paths
  induction paths with
  | nil => intro fl _; simp [tagFetchScan]
  | cons q rest ih =>
    intro fl hguard
    rw [tagFetchScan]
    by_cases hq : (cacheHasKey cache q || fl.contains q) = true
    · rw [if_pos hq]
      exact ih fl hguard
    · rw [if_neg hq]
      show p ∉ q :: (tagFetchScan cache rest (q :: fl)).2
      intro hmem
      rcases List.mem_cons.mp hmem with heq | hmem2
      · subst heq
        rcases hguard with hch | hfl
        · rw [hch] at hq
          simp at hq
        · apply hq
          simp [hfl]
      · refine ih (q :: fl) ?_ hmem2
        rcases hguard with hch | hfl
        · exact Or.inl hch
        · exact Or.inr (List.mem_cons_of_mem _ hfl)

theorem dateFetchScan_noop (cache : List (String × String)) :
    ∀ (paths : List String) (inFlight : List String),
      (∀ p ∈ paths, dateCacheHasKey cache p = true ∨ p ∈ inFlight) →
      dateFetchScan cache paths inFlight = (inFlight, []) := by
  intro paths
  induction paths with
  | nil => intro fl _; rfl
  | cons q rest ih =>
    intro fl hall
    rw [dateFetchScan]
    have hq : (dateCacheHasKey cache q || fl.contains q) = true := by
      rcases hall q (List.mem_cons_self q rest) with h | h
      · simp [h]
      · simp [h]
    rw [if_pos hq]
    exact ih fl fun p hp => hall p (List.mem_cons_of_mem _ hp)

theorem dateFetchScan_no_dup_spawn (cache : List (String × String)) (p : String) :
    ∀ (paths : List String) (inFlight : List String),
      (dateCacheHasKey cache p = true ∨ p ∈ inFlight) →
      p ∉ (dateFetchScan cache paths inFlight).2 := by
  intro paths
  induction paths with
  | nil => intro fl _; simp [dateFetchScan]
  | cons q rest ih =>
    intro fl hguard
    rw [dateFetchScan]
    by_cases hq : (dateCacheHasKey cache q || fl.contains q) = true
    · rw [if_pos hq]
      exact ih fl hguard
    · rw [if_neg hq]
      show p ∉ q :: (dateFetchScan cache rest (q :: fl)).2
      intro hmem
      rcases List.mem_cons.mp hmem with heq | hmem2
      · subst heq
        rcases hguard with hch | hfl
        · rw [hch] at hq
          simp at hq
        · apply hq
          simp [hfl]
      · refine ih (q :: fl) ?_ hmem2
        rcases hguard with hch | hfl
        · exact Or.inl hch
        · exact Or.inr (List.mem_cons_of_mem _ hfl)

/-- C6: a background-fetch request for a path that is already cached or
already in the corresponding in-flight set spawns no job and leaves that
in-flight set unchanged, and no batch containing the path ever spawns a job
for it - for tag fetches (`ensure_tags_for_paths`, `spawn_bulk_tag_fetch`)
and date fetches (`ensure_dates_for_paths`, `spawn_bulk_metadata_fetch`)
alike, windowed or bulk. -/
theorem tag_fetch_no_duplicate_jobs
    (cache : List (String × List String)) (dcache : List (String × String))
    (inFlight dateInFlight : List String) (p : String)
    (hguard : cacheHasKey cache p = true ∨ p ∈ inFlight)
    (hdguard : dateCacheHasKey dcache p = true ∨ p ∈ dateInFlight) :
    ensure_tags_for_paths [p] cache inFlight = (inFlight, []) ∧
    spawn_bulk_tag_fetch [p] cache inFlight = (inFlight, none) ∧
    (∀ paths, p ∉ (ensure_tags_for_paths paths cache inFlight).2) ∧
    (∀ paths bulkJob,
      (spawn_bulk_tag_fetch paths cache inFlight).2 = some bulkJob → p ∉ bulkJob) ∧
    ensure_dates_for_paths [p] dcache dateInFlight = (dateInFlight, []) ∧
    spawn_bulk_metadata_fetch [p] dcache dateInFlight = (dateInFlight, none) ∧
    (∀ paths, p ∉ (ensure_dates_for_paths paths dcache dateInFlight).2) ∧
    (∀ paths bulkJob,
      (spawn_bulk_metadata_fetch paths dcache dateInFlight).2 = some bulkJob →
        p ∉ bulkJob) := by
  have hone : tagFetchScan cache [p] inFlight = (inFlight, []) := by
    apply tagFetchScan_noop
    intro q hq
    rcases List.mem_cons.mp hq with heq | hfalse
    · subst heq; exact hguard
    · simp at hfalse
  have hdone : dateFetchScan dcache [p] dateInFlight = (dateInFlight, []) := by
    apply dateFetchScan_noop
    intro q hq
    rcases List.mem_cons.mp hq with heq | hfalse
    · subst heq; exact hdguard
    · simp at hfalse
  refine ⟨hone, ?_, ?_, ?_, hdone, ?_, ?_, ?_⟩
  · rw [spawn_bulk_tag_fetch]
    rw [hone]
    rfl
  · intro paths
    exact tagFetchScan_no_dup_spawn cache p paths inFlight hguard
  · intro paths bulkJob hsome
    simp only [spawn_bulk_tag_fetch] at hsome
    by_cases hempty : (tagFetchScan cache paths inFlight).2.isEmpty = true
    · rw [if_pos hempty] at hsome
      exact absurd hsome (by simp)
    · rw [if_neg hempty] at hsome
      cases hsome
      exact tagFetchScan_no_dup_spawn cache p paths inFlight hguard
  · rw [spawn_bulk_metadata_fetch]
    rw [hdone]
    rfl
  · intro paths
    exact dateFetchScan_no_dup_spawn dcache p paths dateInFlight hdguard
  · intro paths bulkJob hsome
    simp only [spawn_bulk_metadata_fetch] at hsome
    by_cases hempty : (dateFetchScan dcache paths dateInFlight).2.isEmpty = true
    · rw [if_pos hempty] at hsome
      exact absurd hsome (by simp)
    · rw [if_neg hempty] at hsome
      cases hsome
      exact dateFetchScan_no_dup_spawn dcache p paths dateInFlight hdguard

/-- Witness for C6: requesting the already-tag-cached path `"/p"` (with
`"/q"` tag-in-flight) and the date-in-flight path `"/p"` is a no-op for
the windowed and bulk fetches of both kinds. -/
theorem tag_fetch_no_duplicate_jobs_witness :
    ensure_tags_for_paths ["/p"] [("/p", ["x"])] ["/q"] = (["/q"], []) ∧
    spawn_bulk_tag_fetch ["/p"] [("/p", ["x"])] ["/q"] = (["/q"], none) ∧
    ensure_dates_for_paths ["/p"] [] ["/p"] = (["/p"], []) ∧
    spawn_bulk_metadata_fetch ["/p"] [] ["/p"] = (["/p"], none) := by
  have h := tag_fetch_no_duplicate_jobs [("/p", ["x"])] [] ["/q"] ["/p"] "/p"
    (Or.inl (by decide)) (Or.inr (by decide))
  exact ⟨h.1, h.2.1, h.2.2.2.2.1, h.2.2.2.2.2.1⟩

/-- C7 (amended): during the Enter-commit of a tag edit the in-memory tag
cache entry is updated only after a successful sidecar write; on a write
failure no cache update happens at all, because the error propagates (via
the `?` operator) out of the interactive loop and ends the session, rather
than merely aborting the current commit. -/
theorem tag_commit_write_failure
    (tagInput : String) (workingTags suggestions : List String) (path : String)
    (tagCache : List (String × List String)) (e : String)
    (writeResult : Except String Unit) :
    (writeResult = Except.error e →
      tagEditEnterStep tagInput workingTags suggestions (some path) tagCache
        writeResult = Except.error e) ∧
    (writeResult = Except.ok () →
      tagEditEnterStep tagInput workingTags suggestions (some path) tagCache
          writeResult =
        Except.ok (cacheInsert tagCache path
          (commit_tag_input tagInput workingTags suggestions).2) ∧
      tagsGetD (cacheInsert tagCache path
          (commit_tag_input tagInput workingTags suggestions).2) path =
        (commit_tag_input tagInput workingTags suggestions).2) := by
  constructor
  · intro h
    subst h
    rfl
  · intro h
    subst h
    refine ⟨rfl, ?_⟩
    simp [tagsGetD, cacheInsert]

/-- Witness for C7 (amended) at a concrete commit: the failing write yields
the session-ending error, the successful write yields the updated cache. -/
theorem tag_commit_write_failure_witness :
    tagEditEnterStep "x" [] [] (some "/p") [] (Except.error "io") =
      Except.error "io" ∧
    tagEditEnterStep "x" [] [] (some "/p") [] (Except.ok ()) =
      Except.ok (cacheInsert [] "/p" (commit_tag_input "x" [] []).2) :=
  ⟨(tag_commit_write_failure "x" [] [] "/p" [] "io" (Except.error "io")).1 rfl,
    ((tag_commit_write_failure "x" [] [] "/p" [] "io" (Except.ok ())).2 rfl).1⟩

/-- Counterexample for C7 as stated: with a failing sidecar write the whole
Enter-commit step of the session loop returns an error - `select_from_list`
propagates it and the session ends - so the failure is not a recoverable
condition that aborts only the current tag-edit commit. -/
theorem tag_commit_write_failure_counterexample :
    tagEditEnterStep "x" ["keep"] [] (some "/p") [("/p", ["keep"])]
        (Except.error "io") = Except.error "io" ∧
    (tagEditEnterStep "x" ["keep"] [] (some "/p") [("/p", ["keep"])]
        (Except.error "io")).isOk = false := by
  exact ⟨rfl, rfl⟩

theorem charToNat_inj {a b : Char} (h : a.toNat = b.toNat) : a = b :=
  Char.eq_of_val_eq (UInt32.toNat.inj h)

theorem charsLe_total : ∀ (a b : List Char), (charsLe a b || charsLe b a) = true := by
  intro a
  induction a with
  | nil => intro b; simp [charsLe]
  | cons x xs ih =>
    intro b
    cases b with
    | nil => simp [charsLe]
    | cons y ys =>
      by_cases hxy : x = y
      · subst hxy
        rw [charsLe, if_pos rfl, charsLe, if_pos rfl]
        simpa using ih ys
      · rw [charsLe, if_neg hxy, charsLe, if_neg (fun h => hxy h.symm)]
        rcases Nat.lt_trichotomy x.toNat y.toNat with h | h | h
        · simp [h]
        · exact absurd (charToNat_inj h) hxy
        · simp [h]

theorem charsLe_trans : ∀ (a b c : List Char),
    charsLe a b = true → charsLe b c = true → charsLe a c = true := by
  intro a
  induction a with
  | nil => intro b c _ _; rfl
  | cons x xs ih =>
    intro b c h1 h2
    cases b with
    | nil => rw [charsLe] at h1; exact absurd h1 (by simp)
    | cons y ys =>
      cases c with
      | nil => rw [charsLe] at h2; exact absurd h2 (by simp)
      | cons z zs =>
        rw [charsLe] at h1 h2 ⊢
        by_cases hxy : x = y
        · subst hxy
          rw [if_pos rfl] at h1
          by_cases hyz : x = z
          · subst hyz
            rw [if_pos rfl] at h2
            rw [if_pos rfl]
            exact ih ys zs h1 h2
          · rw [if_neg hyz] at h2
            rw [if_neg hyz]
            exact h2
        · rw [if_neg hxy] at h1
          by_cases hyz : y = z
          · subst hyz
            rw [if_neg hxy]
            exact h1
          · rw [if_neg hyz] at h2
            have hx : x.toNat < y.toNat := by simpa using h1
            have hy : y.toNat < z.toNat := by simpa using h2
            have hxz : x.toNat < z.toNat := Nat.lt_trans hx hy
            have hne : x ≠ z := by
              intro he
              subst he
              omega
            rw [if_neg hne]
            simpa using hxz

/-- C8 (amended): the autocomplete snapshot contains exactly the cached tags
that do not start with `"org/"`, deduplicated and sorted ascending;
committing whitespace-only input leaves both the buffer and the working set
unchanged; committing non-empty trimmed input replaces it with the first
suggestion (in sorted order) having the input as a case-insensitive leading
piece, appends the result unless already present under exact equality, and
clears the buffer. -/
theorem tag_suggestions_and_commit
    (cache : List (String × List String)) (t input : String)
    (tags : List String) (suggestions : List String) (chosen : String) :
    (t ∈ collect_tag_suggestions cache ↔
      (∃ entry ∈ cache, t ∈ entry.2) ∧ startsWithStr t "org/" = false) ∧
    List.Pairwise (fun a b => strLeB a b = true) (collect_tag_suggestions cache) ∧
    (collect_tag_suggestions cache).Nodup ∧
    ((rustTrim input).data = [] →
      commit_tag_input input tags suggestions = (input, tags)) ∧
    ((rustTrim input).data ≠ [] →
      (suggestions.find? fun tag =>
          startsWithStr (lowerStr tag) (lowerStr (rustTrim input))) = some chosen →
      commit_tag_input input tags suggestions =
        ("", if tags.contains chosen then tags else tags ++ [chosen])) := by
  refine ⟨?_, ?_, ?_, ?_, ?_⟩
  · simp [collect_tag_suggestions, List.mem_mergeSort, List.mem_dedup, List.mem_filter,
      List.mem_flatMap]
  · simp only [collect_tag_suggestions]
    exact List.sorted_mergeSort
      (fun a b c hab hbc => charsLe_trans a.data b.data c.data hab hbc)
      (fun a b => charsLe_total a.data b.data) _
  · simp only [collect_tag_suggestions]
    exact (List.mergeSort_perm _ _).nodup_iff.mpr (List.nodup_dedup _)
  · intro h
    simp only [commit_tag_input]
    rw [if_pos (by rw [h]; rfl)]
  · intro h1 hfind
    simp only [commit_tag_input]
    have hne : ¬ (rustTrim input).data.isEmpty = true := by
      cases hd : (rustTrim input).data with
      | nil => exact absurd hd h1
      | cons a l => simp
    rw [if_neg hne, hfind]

/-- Witness for C8 (amended): with cached tags `beta`, `org/x` and `Alpha`,
the snapshot is `["Alpha", "beta"]`; committing `" bet "` against the
working set `["Alpha"]` autocompletes to `beta` and appends it. -/
theorem tag_suggestions_and_commit_witness :
    "beta" ∈ collect_tag_suggestions [("p", ["beta", "org/x"]), ("q", ["Alpha"])] ∧
    commit_tag_input " bet " ["Alpha"]
        (collect_tag_suggestions [("p", ["beta", "org/x"]), ("q", ["Alpha"])]) =
      ("", ["Alpha", "beta"]) := by
  have h := tag_suggestions_and_commit [("p", ["beta", "org/x"]), ("q", ["Alpha"])]
    "beta" " bet " ["Alpha"]
    (collect_tag_suggestions [("p", ["beta", "org/x"]), ("q", ["Alpha"])]) "beta"
  constructor
  · exact h.1.mpr ⟨⟨("p", ["beta", "org/x"]), by simp, by simp⟩, by decide⟩
  · have hfind : ((collect_tag_suggestions
        [("p", ["beta", "org/x"]), ("q", ["Alpha"])]).find? fun tag =>
          startsWithStr (lowerStr tag) (lowerStr (rustTrim " bet "))) =
        some "beta" := by
      simp +decide [collect_tag_suggestions, List.mergeSort, List.merge]
    have hc := (h.2.2.2.2) (by decide) hfind
    rw [hc]
    decide

/-- Counterexample for C8 as stated: the cached tag `org/x` is excluded from
the suggestion snapshot, so committing `"org"` - even though it is a
case-insensitive leading piece of the cached tag `org/x` - does not resolve
to any known tag and the raw text `"org"` is committed instead. -/
theorem tag_suggestions_org_filter_counterexample :
    collect_tag_suggestions [("p", ["org/x"])] = [] ∧
    commit_tag_input "org" [] (collect_tag_suggestions [("p", ["org/x"])]) =
      ("", ["org"]) ∧
    startsWithStr (lowerStr "org/x") (lowerStr (rustTrim "org")) = true := by
  have h1 : collect_tag_suggestions [("p", ["org/x"])] = [] := by
    simp +decide [collect_tag_suggestions, List.mergeSort]
  refine ⟨h1, ?_, by decide⟩
  rw [h1]
  decide

theorem stringMkData (s : String) : String.mk s.data = s := by
  cases s
  rfl

theorem splitOnChar_not_mem (sep : Char) : ∀ (l : List Char), sep ∉ l →
    splitOnChar sep l = [l] := by
  intro l
  induction l with
  | nil => intro _; rfl
  | cons c cs ih =>
    intro h
    have hc : ¬ c = sep := fun he => h (he ▸ List.mem_cons_self c cs)
    rw [splitOnChar, if_neg hc, ih fun hm => h (List.mem_cons_of_mem _ hm)]

theorem splitOnChar_append_sep (sep : Char) : ∀ (l r : List Char), sep ∉ l →
    splitOnChar sep (l ++ sep :: r) = l :: splitOnChar sep r := by
  intro l
  induction l with
  | nil =>
    intro r _
    rw [List.nil_append, splitOnChar, if_pos rfl]
  | cons c cs ih =>
    intro r h
    have hc : ¬ c = sep := fun he => h (he ▸ List.mem_cons_self c cs)
    rw [List.cons_append, splitOnChar, if_neg hc,
      ih r fun hm => h (List.mem_cons_of_mem _ hm)]

theorem dropWhile_cons_false {c : Char} {l : List Char} (h : isWs c = false) :
    (c :: l).dropWhile isWs = c :: l := by
  rw [List.dropWhile_cons, h]
  simp

theorem trimChars_sandwich (a b : Char) (m : List Char)
    (ha : isWs a = false) (hb : isWs b = false) :
    trimChars (a :: m ++ [b]) = a :: m ++ [b] := by
  rw [trimChars, List.cons_append, dropWhile_cons_false ha]
  have h1 : (a :: (m ++ [b])).reverse = b :: (a :: m).reverse := by
    simp
  rw [h1, dropWhile_cons_false hb, ← h1, List.reverse_reverse]

theorem trimChars_cons_ws {c : Char} (h : isWs c = true) (l : List Char) :
    trimChars (c :: l) = trimChars l := by
  rw [trimChars, trimChars, List.dropWhile_cons, h]
  simp

theorem breakOnChar_append (sep : Char) : ∀ (l r : List Char), sep ∉ l →
    breakOnChar sep (l ++ sep :: r) = some (l, r) := by
  intro l
  induction l with
  | nil =>
    intro r _
    rw [List.nil_append, breakOnChar, if_pos rfl]
  | cons c cs ih =>
    intro r h
    have hc : ¬ c = sep := fun he => h (he ▸ List.mem_cons_self c cs)
    rw [List.cons_append, breakOnChar, if_neg hc,
      ih r fun hm => h (List.mem_cons_of_mem _ hm)]
    rfl

theorem escapeQuotes_id : ∀ (l : List Char), '"' ∉ l → escapeQuotes l = l := by
  intro l
  induction l with
  | nil => intro _; rfl
  | cons c cs ih =>
    intro h
    have hc : ¬ c = '"' := fun he => h (he ▸ List.mem_cons_self c cs)
    have ht := ih fun hm => h (List.mem_cons_of_mem _ hm)
    simp only [escapeQuotes] at ht ⊢
    rw [List.flatMap_cons, if_neg hc, ht]
    rfl

theorem format_tags_not_mem (c : Char) (hq : c ≠ '"') (hcm : c ≠ ',') (hsp : c ≠ ' ') :
    ∀ (S : List String), (∀ t ∈ S, c ∉ t.data ∧ '"' ∉ t.data) → c ∉ format_tags S := by
  intro S
  induction S with
  | nil => intro _; simp [format_tags]
  | cons t rest ih =>
    intro hall
    cases rest with
    | nil =>
      rw [format_tags, escapeQuotes_id t.data (hall t (by simp)).2]
      intro hmem
      rcases List.mem_cons.mp hmem with he | hmem2
      · exact hq he
      · rcases List.mem_append.mp hmem2 with h3 | h3
        · exact (hall t (by simp)).1 h3
        · simp at h3
          exact hq h3
    | cons u rest2 =>
      rw [format_tags, escapeQuotes_id t.data (hall t (by simp)).2]
      · intro hmem
        rcases List.mem_cons.mp hmem with he | hmem2
        · exact hq he
        · rcases List.mem_append.mp hmem2 with h3 | h3
          · rcases List.mem_append.mp h3 with h4 | h4
            · exact (hall t (by simp)).1 h4
            · simp at h4
              rcases h4 with h | h | h
              · exact hq h
              · exact hcm h
              · exact hsp h
          · exact ih (fun s hs => hall s (List.mem_cons_of_mem _ hs)) h3
      · simp

theorem extractQSAux_skip : ∀ (l r : List Char), '"' ∉ l →
    extractQSAux (l ++ r) none = extractQSAux r none := by
  intro l
  induction l with
  | nil => intro r _; rw [List.nil_append]
  | cons c cs ih =>
    intro r h
    have hc : ¬ c = '"' := fun he => h (he ▸ List.mem_cons_self c cs)
    rw [List.cons_append, extractQSAux, if_neg hc]
    exact ih r fun hm => h (List.mem_cons_of_mem _ hm)

theorem extractQSAux_quote : ∀ (t acc r : List Char), '"' ∉ t →
    extractQSAux (t ++ '"' :: r) (some acc) =
      if acc.isEmpty && t.isEmpty then extractQSAux r none
      else String.mk (acc.reverse ++ t) :: extractQSAux r none := by
  intro t
  induction t with
  | nil =>
    intro acc r _
    rw [List.nil_append, extractQSAux, if_pos rfl]
    by_cases ha : acc.isEmpty = true
    · rw [if_pos ha]
      simp [ha]
    · rw [if_neg ha]
      simp [List.isEmpty_eq_false_iff_exists_mem] at ha
      simp [ha]
  | cons c cs ih =>
    intro acc r h
    have hc : ¬ c = '"' := fun he => h (he ▸ List.mem_cons_self c cs)
    rw [List.cons_append, extractQSAux, if_neg hc,
      ih (c :: acc) r fun hm => h (List.mem_cons_of_mem _ hm)]
    simp [List.append_assoc]

theorem extractQSAux_format : ∀ (S : List String),
    (∀ t ∈ S, t.data ≠ [] ∧ '"' ∉ t.data) →
    extractQSAux (format_tags S ++ ']' :: [' ']) none = S := by
  intro S
  induction S with
  | nil => intro _; rfl
  | cons t rest ih =>
    intro hall
    have hq : '"' ∉ t.data := (hall t (by simp)).2
    have hne : t.data ≠ [] := (hall t (by simp)).1
    have hempty : t.data.isEmpty = false := by
      cases hd : t.data with
      | nil => exact absurd hd hne
      | cons a l => rfl
    cases rest with
    | nil =>
      rw [format_tags, escapeQuotes_id t.data hq]
      have hshape : ('"' :: (t.data ++ ['"'])) ++ ']' :: [' '] =
          '"' :: (t.data ++ '"' :: (']' :: [' '])) := by
        simp
      rw [hshape, extractQSAux, if_pos rfl, extractQSAux_quote t.data [] _ hq]
      rw [if_neg (by simp [hempty])]
      simp [stringMkData]
      rfl
    | cons u rest2 =>
      rw [format_tags, escapeQuotes_id t.data hq]
      · have hshape : ('"' :: (t.data ++ ['"', ',', ' '] ++ format_tags (u :: rest2))) ++
            ']' :: [' '] =
            '"' :: (t.data ++ '"' ::
              ([',', ' '] ++ (format_tags (u :: rest2) ++ ']' :: [' ']))) := by
          simp
        rw [hshape, extractQSAux, if_pos rfl, extractQSAux_quote t.data [] _ hq]
        rw [if_neg (by simp [hempty])]
        rw [extractQSAux_skip [',', ' '] _ (by decide)]
        rw [ih fun s hs => hall s (List.mem_cons_of_mem _ hs)]
        simp [stringMkData]
      · simp

theorem tags_line_not_mem (c : Char) (hq : c ≠ '"') (hcm : c ≠ ',') (hsp : c ≠ ' ')
    (hfixed : c ∉ (['t', 'a', 'g', 's', ' ', '=', ' ', '['] : List Char))
    (hclose : c ≠ ']') :
    ∀ (S : List String), (∀ t ∈ S, c ∉ t.data ∧ '"' ∉ t.data) → c ∉ tags_line S := by
  intro S hall hmem
  rw [tags_line] at hmem
  rcases List.mem_append.mp hmem with h1 | h1
  · rcases List.mem_append.mp h1 with h2 | h2
    · exact hfixed h2
    · exact format_tags_not_mem c hq hcm hsp S hall h2
  · simp at h1
    exact hclose h1

theorem tags_line_getLast (S : List String) :
    (tags_line S).getLast? = some ']' := by
  rw [tags_line]
  exact List.getLast?_concat _

/-- C4 (amended): writing a tag set into an empty sidecar and parsing it
back returns exactly the same list - order preserved, no duplicates
introduced - provided every tag is non-empty and contains no double quote,
no `#` and no newline (a quote terminates the parsed literal, a `#` starts a
stripped comment, a newline breaks the serialized line). -/
theorem tag_roundtrip (S : List String)
    (hS : ∀ t ∈ S, t.data ≠ [] ∧ '"' ∉ t.data ∧ '#' ∉ t.data ∧ '\n' ∉ t.data) :
    parse_tags_from_toml (write_tags_into_toml "" S) = S := by
  have hw : write_tags_into_toml "" S = String.mk (tags_line S ++ ['\n']) := by
    rw [write_tags_into_toml,
      if_pos (show (trimChars "".data).isEmpty = true from rfl)]
  rw [hw]
  have hnl : '\n' ∉ tags_line S :=
    fun hmem => tags_line_not_mem '\n' (by decide) (by decide) (by decide) (by decide)
      (by decide) S (fun t ht => ⟨(hS t ht).2.2.2, (hS t ht).2.1⟩) hmem
  have hhash : '#' ∉ tags_line S :=
    fun hmem => tags_line_not_mem '#' (by decide) (by decide) (by decide) (by decide)
      (by decide) S (fun t ht => ⟨(hS t ht).2.2.1, (hS t ht).2.1⟩) hmem
  have hsplit : splitOnChar '\n' (tags_line S ++ ['\n']) = [tags_line S, []] := by
    rw [splitOnChar_append_sep '\n' (tags_line S) [] hnl]
    rfl
  have hlines : rustLines (tags_line S ++ ['\n']) = [tags_line S] := by
    rw [rustLines, hsplit]
    simp [tags_line_getLast S]
  have hclean : stripComment (tags_line S) = tags_line S := by
    rw [stripComment, splitOnChar_not_mem '#' _ hhash]
    rfl
  have hshape : tags_line S =
      't' :: (['a', 'g', 's', ' ', '=', ' ', '['] ++ format_tags S) ++ [']'] := by
    rw [tags_line]
    simp
  have htrim : trimChars (tags_line S) = tags_line S := by
    rw [hshape]
    exact trimChars_sandwich 't' ']' _ (by decide) (by decide)
  have hne2 : (tags_line S).isEmpty = false := by
    rw [hshape]
    rfl
  have hbreakShape : tags_line S =
      ['t', 'a', 'g', 's', ' '] ++ '=' :: (' ' :: '[' :: (format_tags S ++ [']'])) := by
    rw [tags_line]
    simp
  have hbreak : breakOnChar '=' (tags_line S) =
      some (['t', 'a', 'g', 's', ' '], ' ' :: '[' :: (format_tags S ++ [']'])) := by
    rw [hbreakShape]
    exact breakOnChar_append '=' _ _ (by decide)
  have hval : trimChars (' ' :: '[' :: (format_tags S ++ [']'])) =
      '[' :: (format_tags S ++ [']']) := by
    rw [trimChars_cons_ws (by decide)]
    exact trimChars_sandwich '[' ']' (format_tags S) (by decide) (by decide)
  have hcontains : ('[' :: (format_tags S ++ [']'])).contains ']' = true := by
    simp
  have hgo : parseLinesGo [tags_line S] false [] =
      ('[' :: (format_tags S ++ [']'])) ++ [' '] := by
    rw [parseLinesGo, hclean, htrim]
    rw [if_neg (by rw [hne2]; simp)]
    rw [if_neg (by simp)]
    rw [hbreak]
    simp only [hval, List.nil_append]
    rw [if_pos (by decide)]
    rw [if_pos hcontains]
  rw [parse_tags_from_toml]
  rw [show (String.mk (tags_line S ++ ['\n'])).data = tags_line S ++ ['\n'] from rfl]
  rw [hlines, hgo]
  rw [if_neg (by simp)]
  rw [extract_quoted_strings]
  have hfinal : ('[' :: (format_tags S ++ [']'])) ++ [' '] =
      '[' :: (format_tags S ++ ']' :: [' ']) := by
    simp
  rw [hfinal, extractQSAux, if_neg (by decide)]
  exact extractQSAux_format S fun t ht => ⟨(hS t ht).1, (hS t ht).2.1⟩

/-- Witness for C4 (amended): a concrete two-tag set round-trips exactly. -/
theorem tag_roundtrip_witness :
    parse_tags_from_toml (write_tags_into_toml "" ["alpha", "b c"]) =
      ["alpha", "b c"] :=
  tag_roundtrip ["alpha", "b c"] (by decide)

/-- Counterexample for C4 as stated: the distinct single-tag set containing
`a"b` does not round-trip - the writer escapes the quote but the reader
treats any literal quote as a terminator, yielding two different tags. -/
theorem tag_roundtrip_counterexample :
    parse_tags_from_toml (write_tags_into_toml "" ["a\"b"]) = ["a\\", "] "] ∧
    parse_tags_from_toml (write_tags_into_toml "" ["a\"b"]) ≠ ["a\"b"] := by
  constructor
  · decide
  · decide
